import Mathlib

/-!
Verification of the pyorca repository (2D ORCA collision avoidance).

The development shallowly embeds the two source modules:

* `src/halfplaneintersect.py` — an incremental 2D linear program over
  half-plane constraints (`halfplane_optimize`, `point_line_project`,
  `line_halfplane_intersect`, geometry primitives).  The numeric type is
  embedded as an arbitrary linear ordered field `K` (instantiated at `ℚ`
  for executable witnesses), idealizing IEEE floats as exact arithmetic.
  The float values `-inf` / `+inf` used for the interval bounds are
  embedded as `Option K` (`none` standing for the corresponding infinity,
  the side being fixed by which bound the value is used as).

* `src/pyorca.py` — the velocity-obstacle computation
  (`get_avoidance_velocity`) and the per-agent orchestration (`orca`),
  embedded over `ℝ` because they take square roots.
-/

namespace PyOrca

section Geometry

variable {K : Type*} [LinearOrderedField K]

/-- 2D vectors: `numpy` length-2 arrays are embedded as pairs. -/
abbrev Vec (K : Type*) := K × K

/-- Embeds `numpy.dot` on length-2 arrays. -/
def dot (a b : Vec K) : K := a.1 * b.1 + a.2 * b.2

/-- Embeds `perp(a) = array((a[1], -a[0]))` from `src/halfplaneintersect.py`. -/
def perp (a : Vec K) : Vec K := (a.2, -a.1)

/-- Embeds `numpy.linalg.det` on a pair of 2D rows: `det((a, b))`. -/
def det (a b : Vec K) : K := a.1 * b.2 - a.2 * b.1

/-- Scalar multiple of a vector (`numpy` broadcast `c * v`, `v / c` being
`sm (1/c) v`). -/
def sm (c : K) (a : Vec K) : Vec K := (c * a.1, c * a.2)

/-- Embeds `norm_sq(x) = dot(x, x)`. -/
def norm_sq (a : Vec K) : K := dot a a

end Geometry

section HalfPlane

variable {K : Type*} [LinearOrderedField K]

/-- Embeds the `InfeasibleError` exception of `src/halfplaneintersect.py`. -/
inductive InfeasibleError : Type where
  | mk : InfeasibleError
deriving DecidableEq, Repr

/-- A constructed `Line` object of `src/halfplaneintersect.py`: an anchor
`point` and a `direction` (unit length when built by the constructor; the
algorithmic functions below consume the stored fields as-is). -/
structure Line (K : Type*) where
  point : Vec K
  direction : Vec K
deriving DecidableEq, Repr

/-- The half-plane membership test used throughout the source:
`dot(p - line.point, line.direction) >= 0`. -/
def sat (ℓ : Line K) (p : Vec K) : Prop :=
  0 ≤ dot (p - ℓ.point) ℓ.direction

instance (ℓ : Line K) (p : Vec K) : Decidable (sat ℓ p) :=
  inferInstanceAs (Decidable (0 ≤ _))

/-- Membership in every half-plane of a constraint list. -/
def satAll (ls : List (Line K)) (p : Vec K) : Prop :=
  ∀ ℓ ∈ ls, sat ℓ p

instance (ls : List (Line K)) (p : Vec K) : Decidable (satAll ls p) :=
  inferInstanceAs (Decidable (∀ ℓ ∈ ls, sat ℓ p))

/-- A lower interval bound: `none` embeds the float `-inf` the source
initializes `left_dist` with. -/
def lbMem (l : Option K) (s : K) : Prop := ∀ a ∈ l, a ≤ s

instance (l : Option K) (s : K) : Decidable (lbMem l s) :=
  inferInstanceAs (Decidable (∀ a ∈ l, a ≤ s))

/-- An upper interval bound: `none` embeds the float `+inf` the source
initializes `right_dist` with. -/
def ubMem (r : Option K) (s : K) : Prop := ∀ b ∈ r, s ≤ b

instance (r : Option K) (s : K) : Decidable (ubMem r s) :=
  inferInstanceAs (Decidable (∀ b ∈ r, s ≤ b))

/-- `max(left_dist, offset)` on the `-inf`-capable lower bound. -/
def lbMax (l : Option K) (q : K) : Option K :=
  match l with
  | none => some q
  | some a => some (max a q)

/-- `min(right_dist, offset)` on the `+inf`-capable upper bound. -/
def ubMin (r : Option K) (q : K) : Option K :=
  match r with
  | none => some q
  | some b => some (min b q)

/-- The source's `left_dist > right_dist` check.  With a float `±inf` on
either side the comparison is false, exactly as for the embedded `none`. -/
def bndGtB (l r : Option K) : Bool :=
  match l, r with
  | some a, some b => decide (b < a)
  | _, _ => false

/-- The interval `[l, r]` is consistent (`left_dist <= right_dist`,
trivially true against an infinity). -/
def bndLe (l r : Option K) : Prop := ∀ a ∈ l, ∀ b ∈ r, a ≤ b

instance (l r : Option K) : Decidable (bndLe l r) :=
  inferInstanceAs (Decidable (∀ a ∈ l, ∀ b ∈ r, a ≤ b))

/-- Loop body of `line_halfplane_intersect` from `src/halfplaneintersect.py`,
folding over `other_lines` while carrying the running `(left_dist,
right_dist)` interval; `Except.error` embeds `raise InfeasibleError`. -/
def lhiAux (line : Line K) :
    List (Line K) → Option K → Option K →
    Except InfeasibleError (Option K × Option K)
  | [], l, r => .ok (l, r)
  | p :: rest, l, r =>
    let num := dot p.direction (line.point - p.point)
    let den := det line.direction p.direction
    if den = 0 then
      if num < 0 then .error .mk
      else lhiAux line rest l r
    else
      let offset := num / den
      let l' := if 0 < den then l else lbMax l offset
      let r' := if 0 < den then ubMin r offset else r
      if bndGtB l' r' then .error .mk
      else lhiAux line rest l' r'

/-- Embeds `line_halfplane_intersect(line, other_lines)` from
`src/halfplaneintersect.py`: the feasible signed-offset interval on the
boundary of `line` under the half-planes `other_lines`, starting from
`left_dist = -inf`, `right_dist = +inf`. -/
def line_halfplane_intersect (line : Line K) (other_lines : List (Line K)) :
    Except InfeasibleError (Option K × Option K) :=
  lhiAux line other_lines none none

/-- Embeds `numpy.clip(x, left_bound, right_bound)` with the `±inf`-capable
bounds: `min(max(x, left), right)`, an infinity imposing no bound. -/
def clip (x : K) (l r : Option K) : K :=
  let y := match l with
    | none => x
    | some a => max x a
  match r with
  | none => y
  | some b => min y b

/-- Embeds `point_line_project(line, point, left_bound, right_bound)` from
`src/halfplaneintersect.py`. -/
def point_line_project (line : Line K) (point : Vec K) (l r : Option K) :
    Vec K :=
  let new_dir := perp line.direction
  let proj_len := dot (point - line.point) new_dir
  line.point + sm (clip proj_len l r) new_dir

/-- Loop body of `halfplane_optimize`: `done` is the already-processed
prefix (the source's `itertools.islice(lines, i)`), `point` the running
optimum. -/
def hpoAux (optimal_point : Vec K) :
    List (Line K) → List (Line K) → Vec K → Except InfeasibleError (Vec K)
  | [], _, point => .ok point
  | ℓ :: rest, done, point =>
    if 0 ≤ dot (point - ℓ.point) ℓ.direction then
      hpoAux optimal_point rest (done ++ [ℓ]) point
    else
      match line_halfplane_intersect ℓ done with
      | .error e => .error e
      | .ok (l, r) =>
        hpoAux optimal_point rest (done ++ [ℓ])
          (point_line_project ℓ optimal_point l r)

/-- Embeds `halfplane_optimize(lines, optimal_point)` from
`src/halfplaneintersect.py`. -/
def halfplane_optimize (lines : List (Line K)) (optimal_point : Vec K) :
    Except InfeasibleError (Vec K) :=
  hpoAux optimal_point lines [] optimal_point

/-- The point of the boundary of `ℓ` at signed offset `s` (in units of
`perp ℓ.direction`), the parametrization `point_line_project` returns
points in. -/
def lineAt (ℓ : Line K) (s : K) : Vec K :=
  ℓ.point + sm s (perp ℓ.direction)

end HalfPlane

section Orca

/-- Embeds `normalized(x) = x / sqrt(norm_sq(x))` from `src/pyorca.py`.
The Python source asserts `norm_sq(x) > 0` and aborts otherwise; the
embedding is total, with `normalized 0 = 0` by the `1/0 = 0` convention
(the degenerate case the source treats as a fatal precondition
violation). -/
noncomputable def normalized (x : Vec ℝ) : Vec ℝ :=
  sm (1 / Real.sqrt (norm_sq x)) x

/-- Embeds the `Line(point, direction)` constructor of
`src/halfplaneintersect.py`: it stores the anchor unchanged and the
direction normalized; the `assert l > 0` inside `normalized` makes
construction fail exactly when the supplied direction has zero squared
length, embedded as `none`. -/
noncomputable def mkLine (point direction : Vec ℝ) : Option (Line ℝ) :=
  if 0 < norm_sq direction then some ⟨point, normalized direction⟩ else none

/-- Embeds `numpy.copysign(a, b)`: the magnitude of `a` carrying the sign
of `b` (nonnegative for `b = 0`, matching positive float zero). -/
noncomputable def copysign (a b : ℝ) : ℝ := if b < 0 then -|a| else |a|

/-- An agent of `src/pyorca.py`: disk-shaped, with a preferred velocity. -/
structure Agent where
  position : Vec ℝ
  velocity : Vec ℝ
  radius : ℝ
  max_speed : ℝ
  pref_velocity : Vec ℝ

/-- The local `x = -(agent.position - collider.position)` of
`get_avoidance_velocity` (the displacement from agent to collider). -/
noncomputable def rel_x (agent collider : Agent) : Vec ℝ :=
  -(agent.position - collider.position)

/-- The local `v = agent.velocity - collider.velocity` of
`get_avoidance_velocity` (the relative velocity). -/
noncomputable def rel_v (agent collider : Agent) : Vec ℝ :=
  agent.velocity - collider.velocity

/-- The local `r = agent.radius + collider.radius` of
`get_avoidance_velocity` (the combined radius). -/
def sum_r (agent collider : Agent) : ℝ :=
  agent.radius + collider.radius

/-- The local `x_len_sq = norm_sq(x)` of `get_avoidance_velocity` (the
squared distance, `d2`). -/
noncomputable def x_len_sq (agent collider : Agent) : ℝ :=
  norm_sq (rel_x agent collider)

/-- The local `adjusted_center = x/t * (1 - (r*r)/x_len_sq)` of
`get_avoidance_velocity`. -/
noncomputable def adjusted_center (agent collider : Agent) (t : ℝ) : Vec ℝ :=
  sm (1 - sum_r agent collider * sum_r agent collider
        / x_len_sq agent collider)
    (sm (1 / t) (rel_x agent collider))

/-- The local `leg_len = sqrt(x_len_sq - r*r)` of
`get_avoidance_velocity`. -/
noncomputable def leg_len (agent collider : Agent) : ℝ :=
  Real.sqrt (x_len_sq agent collider
    - sum_r agent collider * sum_r agent collider)

/-- The local `sine = copysign(r, det((v, x)))` of
`get_avoidance_velocity`. -/
noncomputable def sine (agent collider : Agent) : ℝ :=
  copysign (sum_r agent collider)
    (det (rel_v agent collider) (rel_x agent collider))

/-- The local `rotated_x = rot.dot(x) / x_len_sq` of
`get_avoidance_velocity`, with `rot` the 2×2 matrix
`((leg_len, sine), (-sine, leg_len))`. -/
noncomputable def rotated_x (agent collider : Agent) : Vec ℝ :=
  sm (1 / x_len_sq agent collider)
    (leg_len agent collider * (rel_x agent collider).1
        + sine agent collider * (rel_x agent collider).2,
      -sine agent collider * (rel_x agent collider).1
        + leg_len agent collider * (rel_x agent collider).2)

/-- Embeds `get_avoidance_velocity(agent, collider, t, dt)` from
`src/pyorca.py`, its locals lifted to the named definitions above.
Note on the source text: line 133 of `src/pyorca.py`,
`n = perp(rotated_x)`, is indented one level deeper than the preceding
line 132, which is a Python `IndentationError` (the module cannot be
imported as written); this embedding places that assignment at the same
block level as line 132, the placement the surrounding code, its
comments and the subsequent `n = -n` flip require. -/
noncomputable def get_avoidance_velocity (agent collider : Agent)
    (t dt : ℝ) : Vec ℝ × Vec ℝ :=
  if sum_r agent collider * sum_r agent collider
      ≤ x_len_sq agent collider then
    if dot (rel_v agent collider - adjusted_center agent collider t)
        (adjusted_center agent collider t) < 0 then
      let w := rel_v agent collider - sm (1 / t) (rel_x agent collider)
      (sm (sum_r agent collider / t) (normalized w) - w, normalized w)
    else
      (sm (dot (rel_v agent collider) (rotated_x agent collider))
          (rotated_x agent collider) - rel_v agent collider,
        if sine agent collider < 0 then -(perp (rotated_x agent collider))
        else perp (rotated_x agent collider))
  else
    let w := rel_v agent collider - sm (1 / dt) (rel_x agent collider)
    (sm (sum_r agent collider / dt) (normalized w) - w, normalized w)

/-- The `Line` object `orca` builds for one collider: anchor
`agent.velocity + dv / 2` and direction `n`, the direction being
normalized by the `Line` constructor (total model of the constructor;
the Python constructor would abort on a zero direction). -/
noncomputable def orcaLine (agent collider : Agent) (t dt : ℝ) : Line ℝ :=
  let dvn := get_avoidance_velocity agent collider t dt
  ⟨agent.velocity + sm (1 / 2) dvn.1, normalized dvn.2⟩

/-- The `lines` accumulation loop of `orca`: starts from `[]` and appends
one `Line` per collider, in order. -/
noncomputable def orcaLinesAux (agent : Agent) (t dt : ℝ) :
    List Agent → List (Line ℝ) → List (Line ℝ)
  | [], lines => lines
  | collider :: rest, lines =>
    orcaLinesAux agent t dt rest (lines ++ [orcaLine agent collider t dt])

/-- Embeds `orca(agent, colliding_agents, t, dt)` from `src/pyorca.py`. -/
noncomputable def orca (agent : Agent) (colliding_agents : List Agent)
    (t dt : ℝ) : Except InfeasibleError (Vec ℝ) × List (Line ℝ) :=
  let lines := orcaLinesAux agent t dt colliding_agents []
  (halfplane_optimize lines agent.pref_velocity, lines)

end Orca

/-! ### Helper lemmas: geometry algebra -/

section GeomLemmas

variable {K : Type*} [LinearOrderedField K]

theorem nsq_nonneg (a : Vec K) : 0 ≤ norm_sq a := by
  obtain ⟨a1, a2⟩ := a
  simp only [norm_sq, dot]
  nlinarith [mul_self_nonneg a1, mul_self_nonneg a2]

theorem eq_of_nsq_sub_nonpos {a b : Vec K} (h : norm_sq (a - b) ≤ 0) :
    a = b := by
  obtain ⟨a1, a2⟩ := a
  obtain ⟨b1, b2⟩ := b
  simp only [norm_sq, dot, Prod.mk_sub_mk] at h
  have h1 : a1 = b1 := by nlinarith
  have h2 : a2 = b2 := by nlinarith
  simp [h1, h2]

theorem dot_lineAt_sub (line p : Line K) (s : K) :
    dot (lineAt line s - p.point) p.direction
      = dot p.direction (line.point - p.point)
        - s * det line.direction p.direction := by
  obtain ⟨⟨lp1, lp2⟩, ⟨ld1, ld2⟩⟩ := line
  obtain ⟨⟨pp1, pp2⟩, ⟨pd1, pd2⟩⟩ := p
  simp only [lineAt, dot, det, perp, sm, Prod.mk_sub_mk, Prod.mk_add_mk]
  ring

theorem sat_lineAt_iff (line p : Line K) (s : K) :
    sat p (lineAt line s) ↔
      0 ≤ dot p.direction (line.point - p.point)
        - s * det line.direction p.direction := by
  rw [sat, dot_lineAt_sub]

theorem dot_lineAt_self (ℓ : Line K) (s : K) :
    dot (lineAt ℓ s - ℓ.point) ℓ.direction = 0 := by
  obtain ⟨⟨p1, p2⟩, ⟨d1, d2⟩⟩ := ℓ
  simp only [lineAt, dot, perp, sm, Prod.mk_sub_mk, Prod.mk_add_mk]
  ring

theorem sat_lineAt_self (ℓ : Line K) (s : K) : sat ℓ (lineAt ℓ s) := by
  rw [sat, dot_lineAt_self]

theorem nsq_lineAt_sub (ℓ : Line K) (t : Vec K) (s : K)
    (hu : norm_sq ℓ.direction = 1) :
    norm_sq (lineAt ℓ s - t)
      = (s - dot (t - ℓ.point) (perp ℓ.direction)) ^ 2
        + (norm_sq (ℓ.point - t)
            - (dot (t - ℓ.point) (perp ℓ.direction)) ^ 2) := by
  obtain ⟨⟨p1, p2⟩, ⟨d1, d2⟩⟩ := ℓ
  obtain ⟨t1, t2⟩ := t
  simp only [norm_sq, lineAt, dot, perp, sm, Prod.mk_sub_mk,
    Prod.mk_add_mk] at hu ⊢
  linear_combination (s ^ 2) * hu

theorem dot_combo_sub (p q a d : Vec K) (θ : K) :
    dot ((p + sm θ (q - p)) - a) d
      = (1 - θ) * dot (p - a) d + θ * dot (q - a) d := by
  obtain ⟨p1, p2⟩ := p
  obtain ⟨q1, q2⟩ := q
  obtain ⟨a1, a2⟩ := a
  obtain ⟨d1, d2⟩ := d
  simp only [dot, sm, Prod.mk_sub_mk, Prod.mk_add_mk]
  ring

theorem nsq_combo_sub (p q t : Vec K) (θ : K) :
    norm_sq ((p + sm θ (q - p)) - t)
      = (1 - θ) * norm_sq (p - t) + θ * norm_sq (q - t)
        - θ * (1 - θ) * norm_sq (q - p) := by
  obtain ⟨p1, p2⟩ := p
  obtain ⟨q1, q2⟩ := q
  obtain ⟨t1, t2⟩ := t
  simp only [norm_sq, dot, sm, Prod.mk_sub_mk, Prod.mk_add_mk]
  ring

theorem lineAt_of_dot_eq_zero (ℓ : Line K) (z : Vec K)
    (hu : norm_sq ℓ.direction = 1)
    (hz : dot (z - ℓ.point) ℓ.direction = 0) :
    lineAt ℓ (dot (z - ℓ.point) (perp ℓ.direction)) = z := by
  obtain ⟨⟨p1, p2⟩, ⟨d1, d2⟩⟩ := ℓ
  obtain ⟨z1, z2⟩ := z
  simp only [norm_sq, lineAt, dot, perp, sm, Prod.mk_sub_mk, Prod.mk_add_mk,
    Prod.mk.injEq] at hu hz ⊢
  constructor
  · linear_combination (z1 - p1) * hu - d1 * hz
  · linear_combination (z2 - p2) * hu - d2 * hz

theorem sat_combo (c : Line K) (p q : Vec K) (θ : K)
    (h0 : 0 ≤ θ) (h1 : θ ≤ 1) (hp : sat c p) (hq : sat c q) :
    sat c (p + sm θ (q - p)) := by
  rw [sat, dot_combo_sub]
  rw [sat] at hp hq
  nlinarith

end GeomLemmas

/-! ### Helper lemmas: interval bounds and clamping -/

section BoundLemmas

variable {K : Type*} [LinearOrderedField K]

theorem lbMem_lbMax (l : Option K) (q s : K) :
    lbMem (lbMax l q) s ↔ lbMem l s ∧ q ≤ s := by
  cases l <;> simp [lbMem, lbMax, max_le_iff]

theorem ubMem_ubMin (r : Option K) (q s : K) :
    ubMem (ubMin r q) s ↔ ubMem r s ∧ s ≤ q := by
  cases r <;> simp [ubMem, ubMin, le_min_iff]

theorem bndGtB_eq_false_iff (l r : Option K) :
    bndGtB l r = false ↔ bndLe l r := by
  cases l <;> cases r <;> simp [bndGtB, bndLe, not_lt]

theorem bndLe_none_left (r : Option K) : bndLe (none : Option K) r := by
  simp [bndLe]

theorem lbMem_none (s : K) : lbMem (none : Option K) s := by simp [lbMem]

theorem ubMem_none (s : K) : ubMem (none : Option K) s := by simp [ubMem]

theorem clip_mem (x : K) (l r : Option K) (h : bndLe l r) :
    lbMem l (clip x l r) ∧ ubMem r (clip x l r) := by
  cases l with
  | none =>
    cases r with
    | none => simp [clip, lbMem, ubMem]
    | some b => simp [clip, lbMem, ubMem]
  | some a =>
    cases r with
    | none =>
      simp only [clip, lbMem, ubMem, Option.mem_def, Option.some.injEq]
      constructor
      · rintro a' rfl; exact le_max_right x a
      · rintro b' h'; cases h'
    | some b =>
      have hab : a ≤ b := h a rfl b rfl
      simp only [clip, lbMem, ubMem, Option.mem_def, Option.some.injEq]
      constructor
      · rintro a' rfl
        exact le_min (le_max_right x a) hab
      · rintro b' rfl
        exact min_le_right _ b

theorem sq_clip_le (x s : K) (l r : Option K)
    (hl : lbMem l s) (hr : ubMem r s) :
    (clip x l r - x) ^ 2 ≤ (s - x) ^ 2 := by
  cases l with
  | none =>
    cases r with
    | none => simpa [clip] using sq_nonneg (s - x)
    | some b =>
      have hb : s ≤ b := hr b rfl
      simp only [clip]
      rcases le_total x b with h | h
      · rw [min_eq_left h]; simpa using sq_nonneg (s - x)
      · rw [min_eq_right h]; nlinarith
  | some a =>
    have ha : a ≤ s := hl a rfl
    cases r with
    | none =>
      simp only [clip]
      rcases le_total x a with h | h
      · rw [max_eq_right h]; nlinarith
      · rw [max_eq_left h]; simpa using sq_nonneg (s - x)
    | some b =>
      have hb : s ≤ b := hr b rfl
      simp only [clip]
      rcases le_total x a with h | h
      · rw [max_eq_right h, min_eq_left (le_trans ha hb)]; nlinarith
      · rw [max_eq_left h]
        rcases le_total x b with h2 | h2
        · rw [min_eq_left h2]; simpa using sq_nonneg (s - x)
        · rw [min_eq_right h2]; nlinarith

theorem satAll_append (xs ys : List (Line K)) (p : Vec K) :
    satAll (xs ++ ys) p ↔ satAll xs p ∧ satAll ys p := by
  simp only [satAll, List.mem_append]
  constructor
  · intro h
    exact ⟨fun ℓ hℓ => h ℓ (Or.inl hℓ), fun ℓ hℓ => h ℓ (Or.inr hℓ)⟩
  · rintro ⟨h1, h2⟩ ℓ (hℓ | hℓ)
    · exact h1 ℓ hℓ
    · exact h2 ℓ hℓ

theorem satAll_cons (ℓ : Line K) (xs : List (Line K)) (p : Vec K) :
    satAll (ℓ :: xs) p ↔ sat ℓ p ∧ satAll xs p := by
  simp [satAll]

theorem satAll_nil (p : Vec K) : satAll ([] : List (Line K)) p := by
  simp [satAll]

end BoundLemmas

/-! ### Characterization of `line_halfplane_intersect`

The interval `[left_dist, right_dist]` the fold carries is shown to cut
out exactly the set of signed offsets `s` whose boundary point
`lineAt line s` lies in every previously processed half-plane; an
`InfeasibleError` is raised exactly when that set becomes empty. -/

section LhiLemmas

variable {K : Type*} [LinearOrderedField K]

theorem update_mem_iff (line p : Line K) (l r : Option K) (s : K)
    (hden : det line.direction p.direction ≠ 0) :
    (lbMem (if 0 < det line.direction p.direction then l
        else lbMax l (dot p.direction (line.point - p.point)
          / det line.direction p.direction)) s
      ∧ ubMem (if 0 < det line.direction p.direction then
          ubMin r (dot p.direction (line.point - p.point)
            / det line.direction p.direction) else r) s)
    ↔ (lbMem l s ∧ ubMem r s ∧ sat p (lineAt line s)) := by
  rcases hden.lt_or_lt with hneg | hpos
  · rw [if_neg (not_lt.mpr hneg.le), if_neg (not_lt.mpr hneg.le),
      lbMem_lbMax, sat_lineAt_iff]
    have hs : dot p.direction (line.point - p.point)
        / det line.direction p.direction ≤ s ↔
        0 ≤ dot p.direction (line.point - p.point)
          - s * det line.direction p.direction := by
      rw [div_le_iff_of_neg hneg]
      exact sub_nonneg.symm
    rw [hs]
    tauto
  · rw [if_pos hpos, if_pos hpos, ubMem_ubMin, sat_lineAt_iff]
    have hs : s ≤ dot p.direction (line.point - p.point)
        / det line.direction p.direction ↔
        0 ≤ dot p.direction (line.point - p.point)
          - s * det line.direction p.direction := by
      rw [le_div_iff₀ hpos]
      exact sub_nonneg.symm
    rw [hs]

theorem bndGtB_true_not_mem (l r : Option K) (s : K)
    (h : bndGtB l r = true) : ¬(lbMem l s ∧ ubMem r s) := by
  cases l with
  | none => simp [bndGtB] at h
  | some a =>
    cases r with
    | none => simp [bndGtB] at h
    | some b =>
      simp only [bndGtB, decide_eq_true_eq] at h
      rintro ⟨hl, hr⟩
      have ha := hl a rfl
      have hb := hr b rfl
      linarith

theorem lhiAux_ok_char (line : Line K) (prevs : List (Line K)) :
    ∀ (l r l' r' : Option K),
    lhiAux line prevs l r = .ok (l', r') →
    (∀ s : K, (lbMem l' s ∧ ubMem r' s) ↔
      (lbMem l s ∧ ubMem r s ∧ ∀ p ∈ prevs, sat p (lineAt line s)))
    ∧ (bndLe l r → bndLe l' r') := by
  induction prevs with
  | nil =>
    intro l r l' r' h
    simp only [lhiAux, Except.ok.injEq, Prod.mk.injEq] at h
    obtain ⟨rfl, rfl⟩ := h
    exact ⟨fun s => by simp, id⟩
  | cons p rest ih =>
    intro l r l' r' h
    simp only [lhiAux] at h
    by_cases hden : det line.direction p.direction = 0
    · rw [if_pos hden] at h
      by_cases hnum : dot p.direction (line.point - p.point) < 0
      · rw [if_pos hnum] at h
        exact absurd h (by simp)
      · rw [if_neg hnum] at h
        obtain ⟨hiff, hle⟩ := ih l r l' r' h
        refine ⟨fun s => ?_, hle⟩
        rw [hiff s]
        have hsat : sat p (lineAt line s) := by
          rw [sat_lineAt_iff, hden]
          push_neg at hnum
          simpa using hnum
        simp only [List.forall_mem_cons]
        tauto
    · rw [if_neg hden] at h
      by_cases hck : bndGtB
          (if 0 < det line.direction p.direction then l
            else lbMax l (dot p.direction (line.point - p.point)
              / det line.direction p.direction))
          (if 0 < det line.direction p.direction then
            ubMin r (dot p.direction (line.point - p.point)
              / det line.direction p.direction) else r) = true
      · rw [if_pos hck] at h
        exact absurd h (by simp)
      · rw [if_neg (by simpa using hck)] at h
        obtain ⟨hiff, hle⟩ := ih _ _ l' r' h
        refine ⟨fun s => ?_, fun _ => hle
          ((bndGtB_eq_false_iff _ _).mp (by simpa using hck))⟩
        rw [hiff s]
        have hupd := update_mem_iff line p l r s hden
        simp only [List.forall_mem_cons]
        tauto

theorem lhiAux_error_char (line : Line K) (prevs : List (Line K)) :
    ∀ (l r : Option K),
    lhiAux line prevs l r = .error .mk →
    ∀ s : K, ¬(lbMem l s ∧ ubMem r s ∧ ∀ p ∈ prevs, sat p (lineAt line s)) := by
  induction prevs with
  | nil =>
    intro l r h
    exact absurd h (by simp [lhiAux])
  | cons p rest ih =>
    intro l r h s
    simp only [lhiAux] at h
    by_cases hden : det line.direction p.direction = 0
    · rw [if_pos hden] at h
      by_cases hnum : dot p.direction (line.point - p.point) < 0
      · rintro ⟨-, -, hsat⟩
        have := hsat p (List.mem_cons_self p rest)
        rw [sat_lineAt_iff, hden] at this
        simp only [mul_zero, sub_zero] at this
        linarith
      · rw [if_neg hnum] at h
        have := ih l r h s
        simp only [List.forall_mem_cons] at *
        tauto
    · rw [if_neg hden] at h
      by_cases hck : bndGtB
          (if 0 < det line.direction p.direction then l
            else lbMax l (dot p.direction (line.point - p.point)
              / det line.direction p.direction))
          (if 0 < det line.direction p.direction then
            ubMin r (dot p.direction (line.point - p.point)
              / det line.direction p.direction) else r) = true
      · rintro ⟨hl, hr, hsat⟩
        have hmem := (update_mem_iff line p l r s hden).mpr
          ⟨hl, hr, hsat p (List.mem_cons_self p rest)⟩
        exact bndGtB_true_not_mem _ _ s hck hmem
      · rw [if_neg (by simpa using hck)] at h
        rintro ⟨hl, hr, hsat⟩
        have hmem := (update_mem_iff line p l r s hden).mpr
          ⟨hl, hr, hsat p (List.mem_cons_self p rest)⟩
        refine ih _ _ h s ⟨hmem.1, hmem.2, fun q hq => hsat q (List.mem_cons_of_mem p hq)⟩

theorem lhi_ok_char (line : Line K) (prevs : List (Line K))
    (l r : Option K)
    (h : line_halfplane_intersect line prevs = .ok (l, r)) :
    (∀ s : K, (lbMem l s ∧ ubMem r s) ↔ ∀ p ∈ prevs, sat p (lineAt line s))
    ∧ bndLe l r := by
  obtain ⟨hiff, hle⟩ := lhiAux_ok_char line prevs none none l r h
  refine ⟨fun s => ?_, hle (by simp [bndLe])⟩
  rw [hiff s]
  simp [lbMem_none, ubMem_none]

theorem lhi_error_char (line : Line K) (prevs : List (Line K))
    (h : line_halfplane_intersect line prevs = .error .mk) :
    ∀ s : K, ¬ ∀ p ∈ prevs, sat p (lineAt line s) := by
  intro s hsat
  exact lhiAux_error_char line prevs none none h s
    ⟨lbMem_none s, ubMem_none s, hsat⟩

end LhiLemmas

/-! ### Invariants of the `halfplane_optimize` loop -/

section HpoLemmas

variable {K : Type*} [LinearOrderedField K]

theorem plp_eq_lineAt (ℓ : Line K) (t : Vec K) (l r : Option K) :
    point_line_project ℓ t l r
      = lineAt ℓ (clip (dot (t - ℓ.point) (perp ℓ.direction)) l r) := rfl

theorem point_line_project_le (ℓ : Line K) (t : Vec K) (l r : Option K)
    (s : K) (hu : norm_sq ℓ.direction = 1)
    (hl : lbMem l s) (hr : ubMem r s) :
    norm_sq (point_line_project ℓ t l r - t) ≤ norm_sq (lineAt ℓ s - t) := by
  rw [plp_eq_lineAt, nsq_lineAt_sub ℓ t _ hu, nsq_lineAt_sub ℓ t s hu]
  exact add_le_add_right
    (sq_clip_le (dot (t - ℓ.point) (perp ℓ.direction)) s l r hl hr) _

theorem crossing (done : List (Line K)) (ℓ : Line K) (p q : Vec K)
    (hp : satAll done p) (hq : satAll done q)
    (hpl : dot (p - ℓ.point) ℓ.direction < 0)
    (hql : 0 ≤ dot (q - ℓ.point) ℓ.direction) :
    ∃ θ : K, 0 < θ ∧ θ ≤ 1 ∧ satAll done (p + sm θ (q - p)) ∧
      dot ((p + sm θ (q - p)) - ℓ.point) ℓ.direction = 0 := by
  set dp := dot (p - ℓ.point) ℓ.direction with hdp
  set dq := dot (q - ℓ.point) ℓ.direction with hdq
  have hsub : 0 < dq - dp := by linarith
  refine ⟨-dp / (dq - dp), div_pos (by linarith) hsub, ?_, ?_, ?_⟩
  · rw [div_le_one hsub]
    linarith
  · intro c hc
    exact sat_combo c p q _ (div_pos (by linarith) hsub).le
      (by rw [div_le_one hsub]; linarith) (hp c hc) (hq c hc)
  · rw [dot_combo_sub]
    have hcancel : -dp / (dq - dp) * (dq - dp) = -dp :=
      div_mul_cancel₀ _ hsub.ne'
    rw [← hdp, ← hdq]
    linear_combination hcancel

theorem hpoAux_feasible (opt : Vec K) :
    ∀ (rest done : List (Line K)) (point p : Vec K),
    satAll done point →
    hpoAux opt rest done point = .ok p →
    satAll (done ++ rest) p := by
  intro rest
  induction rest with
  | nil =>
    intro done point p hsat h
    simp only [hpoAux, Except.ok.injEq] at h
    subst h
    simpa using hsat
  | cons ℓ rest ih =>
    intro done point p hsat h
    have hassoc : done ++ ℓ :: rest = (done ++ [ℓ]) ++ rest := by simp
    rw [hassoc]
    simp only [hpoAux] at h
    by_cases hdot : 0 ≤ dot (point - ℓ.point) ℓ.direction
    · rw [if_pos hdot] at h
      refine ih (done ++ [ℓ]) point p ?_ h
      rw [satAll_append]
      exact ⟨hsat, by simpa [satAll_cons, satAll_nil, sat] using hdot⟩
    · rw [if_neg hdot] at h
      cases hlhi : line_halfplane_intersect ℓ done with
      | error e => rw [hlhi] at h; exact absurd h (by simp)
      | ok lr =>
        obtain ⟨l, r⟩ := lr
        rw [hlhi] at h
        obtain ⟨hiff, hle⟩ := lhi_ok_char ℓ done l r hlhi
        refine ih (done ++ [ℓ]) _ p ?_ h
        rw [satAll_append]
        have hclip := clip_mem
          (dot (opt - ℓ.point) (perp ℓ.direction)) l r hle
        constructor
        · rw [plp_eq_lineAt]
          exact (hiff _).mp ⟨hclip.1, hclip.2⟩
        · rw [plp_eq_lineAt]
          simpa [satAll_cons, satAll_nil] using sat_lineAt_self ℓ _

theorem hpoAux_min (opt : Vec K) :
    ∀ (rest done : List (Line K)) (point : Vec K),
    (∀ ℓ ∈ done ++ rest, norm_sq ℓ.direction = 1) →
    (∃ w, satAll (done ++ rest) w) →
    satAll done point →
    (∀ q, satAll done q → norm_sq (point - opt) ≤ norm_sq (q - opt)) →
    ∃ p, hpoAux opt rest done point = .ok p ∧ satAll (done ++ rest) p ∧
      ∀ q, satAll (done ++ rest) q →
        norm_sq (p - opt) ≤ norm_sq (q - opt) := by
  intro rest
  induction rest with
  | nil =>
    intro done point hunit hw hsat hmin
    exact ⟨point, rfl, by simpa using hsat, by simpa using hmin⟩
  | cons ℓ rest ih =>
    intro done point hunit hw hsat hmin
    have hassoc : done ++ ℓ :: rest = (done ++ [ℓ]) ++ rest := by simp
    have hsatℓ : ∀ v : Vec K, satAll (done ++ [ℓ]) v ↔ satAll done v ∧ sat ℓ v := by
      intro v
      rw [satAll_append, satAll_cons]
      simp [satAll_nil]
    simp only [hpoAux]
    by_cases hdot : 0 ≤ dot (point - ℓ.point) ℓ.direction
    · rw [if_pos hdot]
      rw [hassoc] at hunit hw ⊢
      obtain ⟨p, hp1, hp2, hp3⟩ := ih (done ++ [ℓ]) point hunit hw
        ((hsatℓ point).mpr ⟨hsat, hdot⟩)
        (fun q hq => hmin q ((hsatℓ q).mp hq).1)
      exact ⟨p, hp1, hp2, hp3⟩
    · rw [if_neg hdot]
      push_neg at hdot
      obtain ⟨w, hwsat⟩ := hw
      rw [hassoc, satAll_append] at hwsat
      have hwdone : satAll done w := ((hsatℓ w).mp hwsat.1).1
      have hwl : sat ℓ w := ((hsatℓ w).mp hwsat.1).2
      obtain ⟨θ, hθ0, hθ1, hzsat, hzdot⟩ :=
        crossing done ℓ point w hsat hwdone hdot hwl
      have huℓ : norm_sq ℓ.direction = 1 := hunit ℓ (by simp)
      have hzline := lineAt_of_dot_eq_zero ℓ _ huℓ hzdot
      cases hlhi : line_halfplane_intersect ℓ done with
      | error e =>
        exfalso
        cases e
        refine lhi_error_char ℓ done hlhi
          (dot ((point + sm θ (w - point)) - ℓ.point) (perp ℓ.direction))
          (fun c hc => ?_)
        rw [hzline]
        exact hzsat c hc
      | ok lr =>
        obtain ⟨l, r⟩ := lr
        obtain ⟨hiff, hle⟩ := lhi_ok_char ℓ done l r hlhi
        have hclip := clip_mem
          (dot (opt - ℓ.point) (perp ℓ.direction)) l r hle
        have hp1done : satAll done (point_line_project ℓ opt l r) := by
          rw [plp_eq_lineAt]
          exact (hiff _).mp ⟨hclip.1, hclip.2⟩
        have hp1ℓ : sat ℓ (point_line_project ℓ opt l r) := by
          rw [plp_eq_lineAt]
          exact sat_lineAt_self ℓ _
        have hp1min : ∀ q, satAll (done ++ [ℓ]) q →
            norm_sq (point_line_project ℓ opt l r - opt)
              ≤ norm_sq (q - opt) := by
          intro q hq
          have hqdone : satAll done q := ((hsatℓ q).mp hq).1
          have hqℓ : sat ℓ q := ((hsatℓ q).mp hq).2
          obtain ⟨θq, hq0, hq1, hqsat, hqdot⟩ :=
            crossing done ℓ point q hsat hqdone hdot hqℓ
          have hzqline := lineAt_of_dot_eq_zero ℓ _ huℓ hqdot
          have hmem : lbMem l
                (dot ((point + sm θq (q - point)) - ℓ.point)
                  (perp ℓ.direction))
              ∧ ubMem r
                (dot ((point + sm θq (q - point)) - ℓ.point)
                  (perp ℓ.direction)) := by
            refine (hiff _).mpr (fun c hc => ?_)
            rw [hzqline]
            exact hqsat c hc
          have h1 : norm_sq (point_line_project ℓ opt l r - opt)
              ≤ norm_sq ((point + sm θq (q - point)) - opt) := by
            have := point_line_project_le ℓ opt l r _ huℓ hmem.1 hmem.2
            rwa [hzqline] at this
          have h2 : norm_sq ((point + sm θq (q - point)) - opt)
              ≤ norm_sq (q - opt) := by
            have hcombo := nsq_combo_sub point q opt θq
            have hple : norm_sq (point - opt) ≤ norm_sq (q - opt) :=
              hmin q hqdone
            have hnn : 0 ≤ norm_sq (q - point) := nsq_nonneg _
            nlinarith [mul_nonneg (by linarith : (0:K) ≤ 1 - θq)
                (by linarith : (0:K) ≤ norm_sq (q - opt)
                  - norm_sq (point - opt)),
              mul_nonneg (mul_nonneg hq0.le
                (by linarith : (0:K) ≤ 1 - θq)) hnn]
          exact h1.trans h2
        rw [hassoc] at hunit ⊢
        obtain ⟨p, hp1, hp2, hp3⟩ := ih (done ++ [ℓ])
          (point_line_project ℓ opt l r) hunit
          ⟨w, by rw [satAll_append]; exact ⟨hwsat.1, hwsat.2⟩⟩
          ((hsatℓ _).mpr ⟨hp1done, hp1ℓ⟩) hp1min
        exact ⟨p, hp1, hp2, hp3⟩

theorem nsq_self_sub (t : Vec K) : norm_sq (t - t) = 0 := by
  obtain ⟨t1, t2⟩ := t
  simp [norm_sq, dot, Prod.mk_sub_mk]

theorem closest_unique (ls : List (Line K)) (t p₁ p₂ : Vec K)
    (h₁ : satAll ls p₁) (h₂ : satAll ls p₂)
    (m₁ : ∀ q, satAll ls q → norm_sq (p₁ - t) ≤ norm_sq (q - t))
    (m₂ : ∀ q, satAll ls q → norm_sq (p₂ - t) ≤ norm_sq (q - t)) :
    p₁ = p₂ := by
  have hmid : satAll ls (p₁ + sm (1/2 : K) (p₂ - p₁)) :=
    fun c hc => sat_combo c p₁ p₂ (1/2) (by norm_num) (by norm_num)
      (h₁ c hc) (h₂ c hc)
  have hcombo := nsq_combo_sub p₁ p₂ t (1/2 : K)
  have e12 : norm_sq (p₁ - t) = norm_sq (p₂ - t) :=
    le_antisymm (m₁ p₂ h₂) (m₂ p₁ h₁)
  have hle := m₁ _ hmid
  have hnn : norm_sq (p₂ - p₁) ≤ 0 := by nlinarith
  exact (eq_of_nsq_sub_nonpos hnn).symm

theorem halfplane_optimize_spec (lines : List (Line K)) (t : Vec K)
    (hunit : ∀ ℓ ∈ lines, norm_sq ℓ.direction = 1)
    (hfeas : ∃ w, satAll lines w) :
    ∃ p, halfplane_optimize lines t = .ok p ∧ satAll lines p ∧
      ∀ q, satAll lines q → norm_sq (p - t) ≤ norm_sq (q - t) := by
  have h := hpoAux_min t lines [] t (by simpa using hunit)
    (by simpa using hfeas) (satAll_nil t)
    (fun q _ => by rw [nsq_self_sub]; exact nsq_nonneg _)
  simpa using h

theorem halfplane_optimize_infeasible (lines : List (Line K)) (t : Vec K)
    (hempty : ¬ ∃ w, satAll lines w) :
    halfplane_optimize lines t = .error .mk := by
  cases h : halfplane_optimize lines t with
  | ok p =>
    exfalso
    refine hempty ⟨p, ?_⟩
    have := hpoAux_feasible t lines [] t p (satAll_nil t) h
    simpa using this
  | error e => cases e; rfl

theorem hpoAux_noop (t : Vec K) :
    ∀ (rest done : List (Line K)),
    (∀ ℓ ∈ rest, 0 ≤ dot (t - ℓ.point) ℓ.direction) →
    hpoAux t rest done t = .ok t := by
  intro rest
  induction rest with
  | nil => intro done _; rfl
  | cons ℓ rest ih =>
    intro done h
    simp only [hpoAux]
    rw [if_pos (h ℓ (List.mem_cons_self ℓ rest))]
    exact ih (done ++ [ℓ]) (fun c hc => h c (List.mem_cons_of_mem ℓ hc))

end HpoLemmas

/-! ### Claims about the LP solver (`src/halfplaneintersect.py`)

The claim theorems are stated at `K := ℚ`, the executable idealization of
the source's float arithmetic; "closest" is stated via the squared
Euclidean distance `norm_sq (p - target)`, which orders distances
identically. -/

/-- C1: for every finite list of `Line`s (unit directions, as the
constructor guarantees) whose half-plane intersection is nonempty and
every target point, `halfplane_optimize lines target` does not fail, and
returns a point of that intersection — in particular
`dot (p - anchor) direction ≥ 0` holds for every line — that is closest
to `target` among all points of the intersection. -/
theorem C1_halfplane_optimize_feasible_and_closest
    (lines : List (Line ℚ)) (target : Vec ℚ)
    (hunit : ∀ ℓ ∈ lines, norm_sq ℓ.direction = 1)
    (hfeas : ∃ w, satAll lines w) :
    ∃ p, halfplane_optimize lines target = .ok p ∧
      (∀ ℓ ∈ lines, 0 ≤ dot (p - ℓ.point) ℓ.direction) ∧
      ∀ q, satAll lines q → norm_sq (p - target) ≤ norm_sq (q - target) :=
  halfplane_optimize_spec lines target hunit hfeas

/-- Witness for C1 at the single constraint `y ≥ 2` and target `(0, 0)`:
the hypotheses hold and the solver returns the closest feasible point. -/
theorem C1_witness :
    ∃ p, halfplane_optimize [⟨((0:ℚ), 2), (0, 1)⟩] (0, 0) = .ok p ∧
      (∀ ℓ ∈ [(⟨((0:ℚ), 2), (0, 1)⟩ : Line ℚ)],
        0 ≤ dot (p - ℓ.point) ℓ.direction) ∧
      ∀ q, satAll [(⟨((0:ℚ), 2), (0, 1)⟩ : Line ℚ)] q →
        norm_sq (p - (0, 0)) ≤ norm_sq (q - (0, 0)) :=
  C1_halfplane_optimize_feasible_and_closest
    [⟨((0:ℚ), 2), (0, 1)⟩] (0, 0)
    (by norm_num [norm_sq, dot])
    ⟨(0, 2), by norm_num [satAll, sat, dot, Prod.mk_sub_mk]⟩

/-- C2: for every finite list of `Line`s whose half-plane intersection is
empty and every target point, `halfplane_optimize` fails with
`InfeasibleError` (proved without even assuming unit directions). -/
theorem C2_halfplane_optimize_empty_infeasible
    (lines : List (Line ℚ)) (target : Vec ℚ)
    (hempty : ¬ ∃ w, satAll lines w) :
    halfplane_optimize lines target = .error .mk :=
  halfplane_optimize_infeasible lines target hempty

/-- Witness for C2 at the claim's own instance: the parallel
opposite-facing half-planes `Line((0,0),(1,0))` (i.e. `x ≥ 0`) and
`Line((-1,0),(-1,0))` (i.e. `x ≤ -1`) have empty intersection, and the
solver raises `InfeasibleError` (shown here at target `(7, 3)`). -/
theorem C2_witness :
    halfplane_optimize [⟨((0:ℚ), 0), (1, 0)⟩, ⟨(-1, 0), (-1, 0)⟩] (7, 3)
      = .error .mk :=
  C2_halfplane_optimize_empty_infeasible
    [⟨((0:ℚ), 0), (1, 0)⟩, ⟨(-1, 0), (-1, 0)⟩] (7, 3)
    (by
      rintro ⟨w, hw⟩
      have h1 := hw ⟨((0:ℚ), 0), (1, 0)⟩ (by simp)
      have h2 := hw ⟨((-1:ℚ), 0), (-1, 0)⟩ (by simp)
      simp only [sat, dot, Prod.fst_sub, Prod.snd_sub] at h1 h2
      norm_num at h1 h2
      linarith)

/-- C3: for a fixed finite set of `Line`s (unit directions) with nonempty
intersection and a fixed target, `halfplane_optimize` returns the same
point on every permutation of the constraint list. -/
theorem C3_halfplane_optimize_order_independent
    (lines lines' : List (Line ℚ)) (target : Vec ℚ)
    (hunit : ∀ ℓ ∈ lines, norm_sq ℓ.direction = 1)
    (hperm : lines.Perm lines')
    (hfeas : ∃ w, satAll lines w) :
    halfplane_optimize lines target = halfplane_optimize lines' target := by
  have hiff : ∀ v : Vec ℚ, satAll lines v ↔ satAll lines' v := by
    intro v
    constructor <;> intro h ℓ hℓ
    · exact h ℓ (hperm.mem_iff.mpr hℓ)
    · exact h ℓ (hperm.mem_iff.mp hℓ)
  obtain ⟨p, hp1, hp2, hp3⟩ := halfplane_optimize_spec lines target
    hunit hfeas
  obtain ⟨p', hq1, hq2, hq3⟩ := halfplane_optimize_spec lines' target
    (fun ℓ hℓ => hunit ℓ (hperm.mem_iff.mpr hℓ))
    (hfeas.imp (fun w hw => (hiff w).mp hw))
  have hpq : p = p' :=
    closest_unique lines target p p' hp2 ((hiff p').mpr hq2) hp3
      (fun q hq => hq3 q ((hiff q).mp hq))
  rw [hp1, hq1, hpq]

/-- Witness for C3: the constraints `y ≥ 2` and `x ≥ 3` in both orders,
target `(0, 0)`. -/
theorem C3_witness :
    halfplane_optimize [⟨((0:ℚ), 2), (0, 1)⟩, ⟨(3, 0), (1, 0)⟩] (0, 0)
      = halfplane_optimize [⟨((3:ℚ), 0), (1, 0)⟩, ⟨(0, 2), (0, 1)⟩] (0, 0) :=
  C3_halfplane_optimize_order_independent
    [⟨((0:ℚ), 2), (0, 1)⟩, ⟨(3, 0), (1, 0)⟩]
    [⟨((3:ℚ), 0), (1, 0)⟩, ⟨(0, 2), (0, 1)⟩] (0, 0)
    (by norm_num [norm_sq, dot])
    (List.Perm.swap _ _ _)
    ⟨(3, 2), by norm_num [satAll, sat, dot, Prod.mk_sub_mk]⟩

/-- C7: if the target already satisfies every line
(`dot (target - anchor) direction ≥ 0`), `halfplane_optimize` returns the
target itself unchanged — including for the empty list. -/
theorem C7_halfplane_optimize_noop
    (lines : List (Line ℚ)) (target : Vec ℚ)
    (h : ∀ ℓ ∈ lines, 0 ≤ dot (target - ℓ.point) ℓ.direction) :
    halfplane_optimize lines target = .ok target :=
  hpoAux_noop target lines [] h

/-- Witness for C7 at the constraint `y ≥ 0` and the already-feasible
target `(1, 1)`. -/
theorem C7_witness :
    halfplane_optimize [⟨((0:ℚ), 0), (0, 1)⟩] (1, 1) = .ok (1, 1) :=
  C7_halfplane_optimize_noop [⟨((0:ℚ), 0), (0, 1)⟩] (1, 1)
    (by norm_num [dot, Prod.mk_sub_mk])

/-- C10: whenever `line_halfplane_intersect` returns normally, the
returned pair `(left, right)` is a consistent interval: `left ≤ right`,
where the embedded `none` stands for `-∞` on the left and `+∞` on the
right, so the clamp in `point_line_project` always receives a nonempty
interval. -/
theorem C10_lhi_interval_consistent
    (line : Line ℚ) (others : List (Line ℚ)) (l r : Option ℚ)
    (h : line_halfplane_intersect line others = .ok (l, r)) :
    bndLe l r :=
  (lhi_ok_char line others l r h).2

/-- Witness for C10: a concrete run (boundary of `y ≥ 0` against the
half-plane `x ≥ 0`) that returns the interval `[0, +∞)`. -/
theorem C10_witness :
    line_halfplane_intersect (⟨((0:ℚ), 0), (0, 1)⟩ : Line ℚ)
        [⟨(0, 0), (1, 0)⟩] = .ok (some 0, none)
      ∧ bndLe (some (0:ℚ)) (none : Option ℚ) := by
  have h : line_halfplane_intersect (⟨((0:ℚ), 0), (0, 1)⟩ : Line ℚ)
      [⟨(0, 0), (1, 0)⟩] = .ok (some 0, none) := by
    norm_num [line_halfplane_intersect, lhiAux, dot, det, lbMax, ubMin,
      bndGtB, Prod.mk_sub_mk]
  exact ⟨h, C10_lhi_interval_consistent _ _ _ _ h⟩

/-! ### Helper lemmas for the ORCA layer -/

section OrcaLemmas

theorem nsq_sm {K : Type*} [LinearOrderedField K] (c : K) (a : Vec K) :
    norm_sq (sm c a) = c ^ 2 * norm_sq a := by
  obtain ⟨a1, a2⟩ := a
  simp only [norm_sq, dot, sm]
  ring

theorem nsq_eq_zero_iff {K : Type*} [LinearOrderedField K] (a : Vec K) :
    norm_sq a = 0 ↔ a = 0 := by
  constructor
  · intro h
    exact eq_of_nsq_sub_nonpos (a := a) (b := 0) (by rw [sub_zero]; exact h.le)
  · rintro rfl
    simp [norm_sq, dot]

theorem nsq_normalized (d : Vec ℝ) (hd : 0 < norm_sq d) :
    norm_sq (normalized d) = 1 := by
  rw [normalized, nsq_sm, div_pow, one_pow,
    Real.sq_sqrt (nsq_nonneg d), one_div, inv_mul_cancel₀ hd.ne']

theorem orcaLinesAux_eq_map (agent : Agent) (t dt : ℝ) :
    ∀ (cs : List Agent) (acc : List (Line ℝ)),
    orcaLinesAux agent t dt cs acc
      = acc ++ cs.map (fun c => orcaLine agent c t dt) := by
  intro cs
  induction cs with
  | nil => intro acc; simp [orcaLinesAux]
  | cons c rest ih =>
    intro acc
    rw [orcaLinesAux, ih]
    simp

end OrcaLemmas

/-! ### Claims about the ORCA layer (`src/pyorca.py`) -/

/-- C4: in the avoidance computation, when the agents do not overlap
(`d2 ≥ r²`) and the relative velocity lies in a side-cone leg region
(`dot (v - c) c ≥ 0` for the adjusted center `c`), the result is
`u = rotated_x * dot(v, rotated_x) - v` and `n = perp(rotated_x)`,
negated when `sine < 0`, where `leg_len = sqrt(d2 - r²)`, `sine = r`
carrying the sign of `cross(v, x)` and `rotated_x` is the 2×2 matrix
`((leg_len, sine), (-sine, leg_len))` applied to `x`, divided by `d2`
(see the definitions of `leg_len`, `sine` and `rotated_x`).  This
theorem is about the embedding with line 133 of `src/pyorca.py` placed
at its intended indentation; as written, that line is a Python
`IndentationError` and the source file cannot even be imported. -/
theorem C4_gav_leg_branch (agent collider : Agent) (t dt : ℝ)
    (h1 : sum_r agent collider * sum_r agent collider
        ≤ x_len_sq agent collider)
    (h2 : 0 ≤ dot (rel_v agent collider - adjusted_center agent collider t)
        (adjusted_center agent collider t)) :
    get_avoidance_velocity agent collider t dt
      = (sm (dot (rel_v agent collider) (rotated_x agent collider))
            (rotated_x agent collider) - rel_v agent collider,
         if sine agent collider < 0 then -(perp (rotated_x agent collider))
         else perp (rotated_x agent collider)) := by
  rw [get_avoidance_velocity, if_pos h1, if_neg (not_lt.mpr h2)]

/-- Witness for C4: agent at `(0,0)` with velocity `(2,1)` and collider
at `(2,0)` at rest, radii `1/2` each, horizon `t = 1`: the agents do not
overlap and the relative velocity lies in a leg region. -/
theorem C4_witness :
    get_avoidance_velocity
        ⟨(0, 0), (2, 1), 1/2, 10, (0, 0)⟩
        ⟨(2, 0), (0, 0), 1/2, 10, (0, 0)⟩ 1 1
      = (sm (dot (rel_v ⟨(0, 0), (2, 1), 1/2, 10, (0, 0)⟩
              ⟨(2, 0), (0, 0), 1/2, 10, (0, 0)⟩)
            (rotated_x ⟨(0, 0), (2, 1), 1/2, 10, (0, 0)⟩
              ⟨(2, 0), (0, 0), 1/2, 10, (0, 0)⟩))
            (rotated_x ⟨(0, 0), (2, 1), 1/2, 10, (0, 0)⟩
              ⟨(2, 0), (0, 0), 1/2, 10, (0, 0)⟩)
          - rel_v ⟨(0, 0), (2, 1), 1/2, 10, (0, 0)⟩
              ⟨(2, 0), (0, 0), 1/2, 10, (0, 0)⟩,
         if sine ⟨(0, 0), (2, 1), 1/2, 10, (0, 0)⟩
              ⟨(2, 0), (0, 0), 1/2, 10, (0, 0)⟩ < 0 then
           -(perp (rotated_x ⟨(0, 0), (2, 1), 1/2, 10, (0, 0)⟩
              ⟨(2, 0), (0, 0), 1/2, 10, (0, 0)⟩))
         else perp (rotated_x ⟨(0, 0), (2, 1), 1/2, 10, (0, 0)⟩
              ⟨(2, 0), (0, 0), 1/2, 10, (0, 0)⟩)) :=
  C4_gav_leg_branch _ _ 1 1
    (by norm_num [sum_r, x_len_sq, rel_x, norm_sq, dot, Prod.mk_sub_mk])
    (by norm_num [sum_r, x_len_sq, rel_x, rel_v, adjusted_center,
      norm_sq, dot, sm, Prod.mk_sub_mk])

/-- C5: for every agent pair that already overlaps (`d2 < r²`), the
avoidance computation uses the immediate tick horizon `dt`, not the
lookahead horizon `t`: it returns `u = normalized(w)*(r/dt) - w` and
`n = normalized(w)` with `w = v - x/dt`. -/
theorem C5_gav_overlap_uses_dt (agent collider : Agent) (t dt : ℝ)
    (h : x_len_sq agent collider
        < sum_r agent collider * sum_r agent collider) :
    get_avoidance_velocity agent collider t dt
      = (sm (sum_r agent collider / dt)
            (normalized (rel_v agent collider
              - sm (1 / dt) (rel_x agent collider)))
          - (rel_v agent collider - sm (1 / dt) (rel_x agent collider)),
        normalized (rel_v agent collider
          - sm (1 / dt) (rel_x agent collider))) := by
  rw [get_avoidance_velocity, if_neg (not_le.mpr h)]

/-- Witness for C5: two unit-radius agents at `(0,0)` and `(1,0)`
(overlapping), `t = 5`, `dt = 1/4`. -/
theorem C5_witness :
    get_avoidance_velocity
        ⟨(0, 0), (1, 0), 1, 10, (0, 0)⟩
        ⟨(1, 0), (0, 0), 1, 10, (0, 0)⟩ 5 (1/4)
      = (sm (sum_r ⟨(0, 0), (1, 0), 1, 10, (0, 0)⟩
              ⟨(1, 0), (0, 0), 1, 10, (0, 0)⟩ / (1/4))
            (normalized (rel_v ⟨(0, 0), (1, 0), 1, 10, (0, 0)⟩
                ⟨(1, 0), (0, 0), 1, 10, (0, 0)⟩
              - sm (1 / (1/4)) (rel_x ⟨(0, 0), (1, 0), 1, 10, (0, 0)⟩
                ⟨(1, 0), (0, 0), 1, 10, (0, 0)⟩)))
          - (rel_v ⟨(0, 0), (1, 0), 1, 10, (0, 0)⟩
                ⟨(1, 0), (0, 0), 1, 10, (0, 0)⟩
              - sm (1 / (1/4)) (rel_x ⟨(0, 0), (1, 0), 1, 10, (0, 0)⟩
                ⟨(1, 0), (0, 0), 1, 10, (0, 0)⟩)),
        normalized (rel_v ⟨(0, 0), (1, 0), 1, 10, (0, 0)⟩
            ⟨(1, 0), (0, 0), 1, 10, (0, 0)⟩
          - sm (1 / (1/4)) (rel_x ⟨(0, 0), (1, 0), 1, 10, (0, 0)⟩
            ⟨(1, 0), (0, 0), 1, 10, (0, 0)⟩))) :=
  C5_gav_overlap_uses_dt _ _ 5 (1/4)
    (by norm_num [sum_r, x_len_sq, rel_x, norm_sq, dot, Prod.mk_sub_mk])

/-- C6: `orca` builds exactly one `Line` per collider, preserving the
collider order, with anchor `agent.velocity + u/2` and direction `n`
from the per-pair avoidance computation (the `Line` constructor
normalizing the stored direction), and returns the pair of
`halfplane_optimize` applied to those constraints at
`agent.pref_velocity` together with the constraint list; in particular
for an empty collider list it returns `agent.pref_velocity` and the
empty constraint list. -/
theorem C6_orca_structure (agent : Agent) (colliders : List Agent)
    (t dt : ℝ) :
    orca agent colliders t dt
      = (halfplane_optimize
          (colliders.map (fun c =>
            (⟨agent.velocity
                + sm (1 / 2) (get_avoidance_velocity agent c t dt).1,
              normalized (get_avoidance_velocity agent c t dt).2⟩ :
              Line ℝ)))
          agent.pref_velocity,
        colliders.map (fun c =>
          (⟨agent.velocity
              + sm (1 / 2) (get_avoidance_velocity agent c t dt).1,
            normalized (get_avoidance_velocity agent c t dt).2⟩ :
            Line ℝ)))
    ∧ orca agent [] t dt
        = (.ok agent.pref_velocity, ([] : List (Line ℝ))) := by
  constructor
  · rw [orca, orcaLinesAux_eq_map]
    simp [orcaLine]
  · rfl

/-- C8: constructing `Line(anchor, d)` fails exactly when `d` has zero
length (the `assert` in `normalized`); for every nonzero `d` it
succeeds, stores the anchor unchanged and stores a direction of unit
squared norm.  The embedded `Line` structure is immutable, so the unit
invariant holds from construction onward. -/
theorem C8_Line_constructor (p d : Vec ℝ) :
    (mkLine p d = none ↔ d = 0)
    ∧ (d ≠ 0 → ∃ ℓ, mkLine p d = some ℓ ∧ ℓ.point = p
        ∧ norm_sq ℓ.direction = 1) := by
  have hiff : 0 < norm_sq d ↔ d ≠ 0 := by
    constructor
    · intro h hd
      rw [hd] at h
      simp [norm_sq, dot] at h
    · intro hd
      rcases lt_or_eq_of_le (nsq_nonneg d) with h | h
      · exact h
      · exact absurd ((nsq_eq_zero_iff d).mp h.symm) hd
  constructor
  · rw [mkLine]
    constructor
    · intro h
      by_contra hd
      rw [if_pos (hiff.mpr hd)] at h
      exact Option.some_ne_none _ h
    · intro hd
      rw [if_neg (by rw [hiff]; simpa using hd)]
  · intro hd
    refine ⟨⟨p, normalized d⟩, ?_, rfl, nsq_normalized d (hiff.mpr hd)⟩
    rw [mkLine, if_pos (hiff.mpr hd)]

/-- Witness for C8 at the nonzero direction `(3, 4)`: construction
succeeds and the stored direction has unit squared norm. -/
theorem C8_witness :
    ∃ ℓ, mkLine ((0:ℝ), 0) (3, 4) = some ℓ ∧ ℓ.point = ((0:ℝ), 0)
      ∧ norm_sq ℓ.direction = 1 :=
  (C8_Line_constructor ((0:ℝ), 0) (3, 4)).2
    (by norm_num [Prod.ext_iff])

end PyOrca
